import Mathlib

/-!
Verification of the m2r2 Markdown→reStructuredText converter.

Text is embedded as `List Char` (Python `str` is a sequence of code points).
Python library functions used by the code (`str.replace`, `str.splitlines`,
`urllib.parse.urlparse`, `os.path.splitext`, `docutils.utils.column_width`)
are translated as executable Lean functions on `List Char`.
-/

set_option maxRecDepth 4000

namespace M2R2

/-- The characters of a string literal, used to write `List Char` constants. -/
def toL (s : String) : List Char := s.data

/-! ### Python string primitives -/

/-- `occursIn pat s` is true when `pat` occurs as a contiguous substring of `s`. -/
def occursIn (pat : List Char) : List Char → Bool
  | [] => pat.isPrefixOf []
  | c :: cs => pat.isPrefixOf (c :: cs) || occursIn pat cs

/-- Fuel-driven core of `pyReplace`.  Occurrences of `pat` are found left to
right and replaced non-overlappingly, as Python `str.replace` does.  The fuel
is consumed one unit per character examined; `pyReplace` supplies
`s.length`, which is sufficient for a non-empty pattern. -/
def pyReplaceF (pat rep : List Char) : Nat → List Char → List Char
  | _, [] => []
  | 0, s => s
  | n + 1, c :: cs =>
    if pat.isPrefixOf (c :: cs) then
      rep ++ pyReplaceF pat rep n ((c :: cs).drop pat.length)
    else
      c :: pyReplaceF pat rep n cs

/-- Python `s.replace(pat, rep)` for a non-empty pattern: every occurrence of
`pat` in `s` is replaced by `rep`, scanning left to right without overlap. -/
def pyReplace (s pat rep : List Char) : List Char :=
  pyReplaceF pat rep s.length s

/-- Splitting accumulator for `pySplitlines`: cuts the text at newline
characters, keeping a final empty piece when the text ends in a newline. -/
def splitNlAux : List Char → List Char → List (List Char)
  | [], acc => [acc.reverse]
  | c :: cs, acc =>
    if c = '\n' then acc.reverse :: splitNlAux cs [] else splitNlAux cs (c :: acc)

/-- Python `s.splitlines()` for text whose only line-boundary character is
`'\n'` (the separator the renderer itself emits): the list of lines, without
a trailing empty line when the text ends in a newline, and `[]` for `""`.
Python recognises further boundary characters (`\r`, `\x0b`, `\x0c`, …);
statements about texts built from user input exclude those explicitly. -/
def pySplitlines (s : List Char) : List (List Char) :=
  let ps := splitNlAux s []
  if ps.getLast? = some [] then ps.dropLast else ps

/-- The extra line-boundary characters of Python `str.splitlines` besides
`'\n'` (from the CPython documentation). -/
def pyLineBoundary (c : Char) : Bool :=
  c = '\n' || c = '\r' || c = '\x0b' || c = '\x0c' ||
  c = '\x1c' || c = '\x1d' || c = '\x1e' || c = '\x85' ||
  c = '\u2028' || c = '\u2029'

/-- Python regex `\s` on `str` patterns: Unicode whitespace, modelled from
CPython (`sre` category `UNI_SPACE`, i.e. `Py_UNICODE_ISSPACE`, the same set
as `str.isspace`): TAB–CR, the information separators 1C–1F, space, NEL,
no-break space, Ogham space mark, the U+2000–U+200A spaces, line and
paragraph separators, narrow no-break space, medium mathematical space, and
ideographic space. -/
def pyIsSpace (c : Char) : Bool :=
  c = '\u0020' || c = '\u0009' || c = '\u000a' || c = '\u000b' ||
  c = '\u000c' || c = '\u000d' || c = '\u001c' || c = '\u001d' ||
  c = '\u001e' || c = '\u001f' || c = '\u0085' || c = '\u00a0' ||
  c = '\u1680' || c = '\u2000' || c = '\u2001' || c = '\u2002' ||
  c = '\u2003' || c = '\u2004' || c = '\u2005' || c = '\u2006' ||
  c = '\u2007' || c = '\u2008' || c = '\u2009' || c = '\u200a' ||
  c = '\u2028' || c = '\u2029' || c = '\u202f' || c = '\u205f' ||
  c = '\u3000'

/-- Whether a text does not end in a whitespace character (vacuously true
for the empty text). -/
def lastNotSpace (t : List Char) : Bool :=
  match t.getLast? with
  | some c => ! pyIsSpace c
  | none => true

/-- Python `"\n".join(lines)`: the lines joined by single newlines. -/
def joinNl : List (List Char) → List Char
  | [] => []
  | [x] => x
  | x :: y :: xs => x ++ '\n' :: joinNl (y :: xs)

/-- Index of the last occurrence of `c`, Python `s.rfind(c)` (as an `Option`). -/
def rfindIdx (c : Char) : List Char → Option Nat
  | [] => none
  | x :: xs =>
    match rfindIdx c xs with
    | some i => some (i + 1)
    | none => if x = c then some 0 else none

/-- Split at the first occurrence of `ch`: Python `s.split(ch, 1)` when `ch`
occurs (returning the parts before and after), `none` otherwise. -/
def breakAtChar (ch : Char) : List Char → Option (List Char × List Char)
  | [] => none
  | c :: cs =>
    if c = ch then some ([], cs)
    else (breakAtChar ch cs).map (fun pr => (c :: pr.1, pr.2))

/-! ### `docutils.utils.column_width`

Modelled from `docutils` (external collaborator of the repository): the
terminal column width of a string is 2 for characters whose Unicode
East-Asian-Width class is `W` or `F`, 1 otherwise, minus the number of
combining characters.  The class membership is translated here by its
principal code-point ranges from the Unicode `EastAsianWidth` table. -/

/-- Unicode East-Asian-Width `W`/`F` (wide/fullwidth), principal ranges. -/
def eastAsianWide (c : Char) : Bool :=
  let n := c.toNat
  (0x1100 ≤ n && n ≤ 0x115F) || (0x2E80 ≤ n && n ≤ 0x303E) ||
  (0x3041 ≤ n && n ≤ 0x33FF) || (0x3400 ≤ n && n ≤ 0x4DBF) ||
  (0x4E00 ≤ n && n ≤ 0x9FFF) || (0xA000 ≤ n && n ≤ 0xA4CF) ||
  (0xAC00 ≤ n && n ≤ 0xD7A3) || (0xF900 ≤ n && n ≤ 0xFAFF) ||
  (0xFE30 ≤ n && n ≤ 0xFE4F) || (0xFF00 ≤ n && n ≤ 0xFF60) ||
  (0xFFE0 ≤ n && n ≤ 0xFFE6) || (0x20000 ≤ n && n ≤ 0x2FFFD) ||
  (0x30000 ≤ n && n ≤ 0x3FFFD)

/-- Unicode combining characters, principal ranges. -/
def combiningChar (c : Char) : Bool :=
  let n := c.toNat
  (0x0300 ≤ n && n ≤ 0x036F) || (0x1AB0 ≤ n && n ≤ 0x1AFF) ||
  (0x1DC0 ≤ n && n ≤ 0x1DFF) || (0x20D0 ≤ n && n ≤ 0x20FF) ||
  (0xFE20 ≤ n && n ≤ 0xFE2F)

/-- `docutils.utils.column_width(text)`: display width in terminal columns. -/
def columnWidth (text : List Char) : Nat :=
  (text.map fun c => if eastAsianWide c then 2 else 1).sum
    - (text.filter combiningChar).length

/-! ### RestRenderer (src/m2r2/m2r2.py) -/

/-- `RestRenderer.list_marker`: the placeholder marker token. -/
def list_marker : List Char := toL "\x7b#__rest_list_mark__#\x7d"

/-- `RestRenderer.hmarks`: the heading-level → underline-character table.
A level outside the table is a `KeyError` in Python, modelled as `none`. -/
def hmarks (level : Nat) : Option Char :=
  if level = 1 then some '='
  else if level = 2 then some '-'
  else if level = 3 then some '^'
  else if level = 4 then some '~'
  else if level = 5 then some '"'
  else if level = 6 then some '#'
  else none

/-- `RestRenderer.heading` of `src/m2r2/m2r2.py` (lines 84–85):
`"\n{0}\n{1}\n".format(text, self.hmarks[level] * len(text))`.
The underline repeats the mark `len(text)` times (code-point count).
`none` models the `KeyError` raised for a level outside the table. -/
def heading (text : List Char) (level : Nat) : Option (List Char) :=
  (hmarks level).map fun m =>
    '\n' :: text ++ '\n' :: List.replicate text.length m ++ ['\n']

/-- `RestRenderer.heading` of `src/m2r2/rst/renderer.py` (lines 85–91):
`f"\n{text}\n{self.hmarks[level] * column_width(text)}\n"` — this sibling
renderer repeats the mark `column_width(text)` times (display width). -/
def headingRst (text : List Char) (level : Nat) : Option (List Char) :=
  (hmarks level).map fun m =>
    '\n' :: text ++ '\n' :: List.replicate (columnWidth text) m ++ ['\n']

/-- `RestRenderer._raw_html` (lines 54–56): wraps the html in the
`raw-html-m2r` role with standalone escapes, and sets `_include_raw_html`
(returned as the second component, the new value of the flag). -/
def _raw_html (html : List Char) : List Char × Bool :=
  (toL "\\ :raw-html-m2r:`" ++ html ++ toL "`\\ ", true)

/-- `RestRenderer.codespan` (lines 143–152), threaded with the current value
of the `_include_raw_html` flag: a span without a double backtick becomes a
standalone-escaped inline literal and the flag is returned unchanged; a span
containing a double backtick is escaped (every backtick replaced by
`&#96;`) into an HTML `<code>` span through `_raw_html`, which sets the
flag. -/
def codespan (text : List Char) (include_raw_html : Bool) :
    List Char × Bool :=
  if ¬ occursIn (toL "``") text then
    (toL "\\ ``" ++ text ++ toL "``\\ ", include_raw_html)
  else
    _raw_html
      (toL "<code class=\"docutils literal\"><span class=\"pre\">" ++
        pyReplace text (toL "`") (toL "&#96;") ++ toL "</span></code>")

/-- `RestRenderer.list_item` (lines 98–99): `"\n" + self.list_marker + text`. -/
def list_item (text : List Char) : List Char :=
  '\n' :: (list_marker ++ text)

/-- `RestRenderer.list` (lines 90–96): pick the real marker, indent every
non-empty line that does not start with the placeholder, wrap in newlines,
then globally substitute placeholder → marker (Python `str.replace`).
`level` and `start` are accepted and unused, as in the source. -/
def list (text : List Char) (ordered : Bool) (level : Nat)
    (start : Option Nat) : List Char :=
  let _ := level
  let _ := start
  let mark := if ordered then toL "#. " else toL "* "
  let lines := pySplitlines text
  let lines := lines.map fun line =>
    if line ≠ [] ∧ ¬ list_marker.isPrefixOf line then
      List.replicate mark.length ' ' ++ line
    else line
  pyReplace ('\n' :: (joinNl lines ++ ['\n'])) list_marker mark

/-- `RestRenderer.paragraph` (lines 101–105): a paragraph whose inline-rendered
text ends in `"::"` loses its last character, then the text is wrapped in a
leading and a trailing newline. -/
def paragraph (text : List Char) : List Char :=
  let text := if (toL "::").isSuffixOf text then text.dropLast else text
  '\n' :: (text ++ ['\n'])

/-- `RestRenderer.eol_literal_marker` (lines 246–248): emits the marker text
chosen by the inline parser verbatim. -/
def eol_literal_marker (marker : List Char) : List Char := marker

/-! ### Post-processing (src/m2r2/m2r2.py, `M2R2.post_process`) -/

/-- The `PROLOG` constant (lines 19–23) declaring the `raw-html-m2r` role. -/
def PROLOG : List Char := toL ".. role:: raw-html-m2r(raw)\n   :format: html\n\n"

/-- The five chained `str.replace` cleanups of `M2R2.post_process`
(lines 387–394), in source order. -/
def cleanup (text : List Char) : List Char :=
  pyReplace
    (pyReplace
      (pyReplace
        (pyReplace
          (pyReplace text (toL "\\ \n") (toL "\n"))
          (toL "\n\\ ") (toL "\n"))
        (toL " \\ ") (toL " "))
      (toL "\\  ") (toL " "))
    (toL "\\ .") (toL ".")

/-- `M2R2.post_process` (lines 387–400): the cleanup chain, then the prolog
is prepended exactly when the renderer's `_include_raw_html` flag (passed
here as `include_raw_html`, its value at finalize time) is true. -/
def post_process (text : List Char) (include_raw_html : Bool) : List Char :=
  if include_raw_html then PROLOG ++ cleanup text else cleanup text

/-! ### RestInlineParser: the end-of-line literal marker rule

The rule's regular expression is `EOL_LITERAL_MARKER = (\s+)?::\s*$`
(src/m2r2/m2r2.py line 301).  Because `:` is not a whitespace character the
match at a given start position is deterministic: a maximal whitespace run
(capture group 1, absent when empty), then `::`, then whitespace up to the
end of the line.  `re` finds the leftmost such start position, and the
token's text replaces the matched span. -/

/-- `RestInlineParser.parse_eol_literal_marker` (lines 346–349): the token's
marker is `":"` when capture group 1 (the leading whitespace) is absent, and
`""` when it is present. -/
def parse_eol_literal_marker (group1 : Option (List Char)) : List Char :=
  if group1 = none then [':'] else []

/-- Whether `(\s+)?::\s*$` matches at the start of `s` (i.e. covering all of
`s`), returning capture group 1 when it does. -/
def matchEolAt (s : List Char) : Option (Option (List Char)) :=
  let ws := s.takeWhile pyIsSpace
  let rest := s.dropWhile pyIsSpace
  if rest.take 2 = [':', ':'] ∧ (rest.drop 2).all pyIsSpace then
    some (if ws = [] then none else some ws)
  else none

/-- One step of the leftmost-match search: report a match at the current
position (`m`), otherwise keep the current character and take the result of
searching the remainder (`rest`). -/
def searchEolStep (m : Option (Option (List Char))) (c : Char)
    (rest : Option (List Char × Option (List Char))) :
    Option (List Char × Option (List Char)) :=
  match m with
  | some g => some ([], g)
  | none =>
    match rest with
    | some pr => some (c :: pr.1, pr.2)
    | none => none

/-- Leftmost match of `(\s+)?::\s*$` inside a line: the prefix before the
match and capture group 1, or `none` when the pattern does not match. -/
def searchEol : List Char → Option (List Char × Option (List Char))
  | [] => none
  | c :: cs => searchEolStep (matchEolAt (c :: cs)) c (searchEol cs)

/-- The effect of the end-of-line literal-marker rule on one line: the
matched span (trailing `(\s+)?::\s*`) is replaced by the rendered token
`eol_literal_marker (parse_eol_literal_marker group1)`; a line without a
match is left unchanged. -/
def applyEolLiteralRule (line : List Char) : List Char :=
  match searchEol line with
  | none => line
  | some (pre, g) => pre ++ eol_literal_marker (parse_eol_literal_marker g)

/-! ### RestInlineParser: active rule set (src/m2r2/m2r2.py lines 294–381)

The class stores its extended rule tuple in the attribute `RUlE_NAMES`
(line 313 — note the lower-case `l`), while the engine's active rule set is
the attribute `RULE_NAMES`, inherited unchanged from `mistune.InlineParser`.
Both attributes are modelled, and `__init__`'s updates to each are
translated as written. -/

/-- `mistune.InlineParser.RULE_NAMES` (external collaborator, modelled from
mistune v2).  The development relies only on the custom rule names — in
particular `"inline_math"` — not being members. -/
def mistuneInlineRuleNames : List String :=
  ["escape", "inline_html", "auto_link", "footnote", "std_link", "ref_link",
   "ref_link2", "asterisk_emphasis", "underscore_emphasis", "codespan",
   "strikethrough", "linebreak"]

/-- The tuple assigned at class level to `RUlE_NAMES` (lines 313–319): the
five custom inline rules prepended to the inherited names. -/
def restCustomRuleNames : List String :=
  ["inline_math", "image_link", "rest_role", "rest_link",
   "eol_literal_marker"] ++ mistuneInlineRuleNames

/-- The two rule-tuple attributes of a `RestInlineParser` instance.
`RULE_NAMES` is the attribute the mistune engine consults to build its
scanner; `RUlE_NAMES` is the separately spelled attribute of line 313. -/
structure InlineRuleAttrs where
  RULE_NAMES : List String
  RUlE_NAMES : List String
  deriving Repr, DecidableEq

/-- `RestInlineParser.__init__` (lines 357–372), translated as written: the
instance starts from the class attributes (`RULE_NAMES` inherited from
`mistune.InlineParser`, `RUlE_NAMES` from line 313); `inline_maths` tests
membership in `RULE_NAMES`; the `disable_inline_math` branch rebuilds
`RULE_NAMES` from `RUlE_NAMES` without `"inline_math"` only when
`inline_maths` holds, and the other branch prepends `"inline_math"` to
`RUlE_NAMES` when it does not. -/
def restInlineParserInit (disable_inline_math : Bool) : InlineRuleAttrs :=
  let s : InlineRuleAttrs :=
    { RULE_NAMES := mistuneInlineRuleNames, RUlE_NAMES := restCustomRuleNames }
  let inline_maths := s.RULE_NAMES.contains "inline_math"
  if disable_inline_math then
    if inline_maths then
      { s with RULE_NAMES := s.RUlE_NAMES.filter (fun x => x ≠ "inline_math") }
    else s
  else
    if ¬ inline_maths then
      { s with RUlE_NAMES := "inline_math" :: s.RUlE_NAMES }
    else s

/-- The inline parser as constructed by `M2R2.__init__` (lines 376–381):
`RestInlineParser(renderer, disable_inline_math)` passes the option as a
positional argument, which lands in `*args` (becoming mistune's `hard_wrap`
parameter) rather than in `**kwargs`; `kwargs.pop("disable_inline_math",
False)` therefore always yields `False` inside `__init__`. -/
def m2r2InlineInit (disable_inline_math : Bool) : InlineRuleAttrs :=
  let _ := disable_inline_math
  restInlineParserInit false

/-! ### urllib.parse / os.path (external collaborators, modelled from CPython) -/

/-- The result record of `urllib.parse.urlparse`. -/
structure UrlParseResult where
  scheme : List Char
  netloc : List Char
  path : List Char
  params : List Char
  query : List Char
  fragment : List Char
  deriving Repr, DecidableEq

/-- The characters allowed in a URL scheme (`urllib.parse.scheme_chars`). -/
def schemeChar (c : Char) : Bool :=
  c.isAlpha || c.isDigit || c = '+' || c = '-' || c = '.'

/-- `urllib.parse.urlsplit(url)` (CPython): the scheme is split off at the
first `':'` when the part before it is non-empty and made of scheme
characters; a `"//"` prefix of the remainder introduces the netloc, ended by
the first `/?#`; the fragment is everything after the first `#` of the
remainder; the query everything after the first `?` of what is left. -/
def pyUrlsplit (url : List Char) : UrlParseResult :=
  let (scheme, rest) :=
    match breakAtChar ':' url with
    | some (pre, post) =>
      if pre ≠ [] ∧ pre.all schemeChar then (pre.map Char.toLower, post)
      else (([] : List Char), url)
    | none => ([], url)
  let (netloc, rest) :=
    if (toL "//").isPrefixOf rest then
      let after := rest.drop 2
      let n := after.takeWhile fun c => ¬ (c = '/' ∨ c = '?' ∨ c = '#')
      (n, after.drop n.length)
    else ([], rest)
  let (rest, fragment) :=
    match breakAtChar '#' rest with
    | some (pre, post) => (pre, post)
    | none => (rest, [])
  let (rest, query) :=
    match breakAtChar '?' rest with
    | some (pre, post) => (pre, post)
    | none => (rest, [])
  { scheme := scheme, netloc := netloc, path := rest, params := [],
    query := query, fragment := fragment }

/-- The schemes for which `urlparse` splits path parameters
(`urllib.parse.uses_params`; the empty scheme is a member). -/
def uses_params : List (List Char) :=
  [toL "", toL "ftp", toL "hdl", toL "prospero", toL "http", toL "imap",
   toL "https", toL "shttp", toL "rtsp", toL "rtspu", toL "sip",
   toL "sips", toL "mms", toL "sftp", toL "tel"]

/-- `urllib.parse._splitparams(url)`: parameters start at the first `';'`
after the last `'/'` (or anywhere when there is no `'/'`). -/
def pySplitparams (u : List Char) : List Char × List Char :=
  match rfindIdx '/' u with
  | some s =>
    match breakAtChar ';' (u.drop s) with
    | some (pre, post) => (u.take (s + pre.length), post)
    | none => (u, [])
  | none =>
    match breakAtChar ';' u with
    | some (pre, post) => (pre, post)
    | none => (u, [])

/-- `urllib.parse.urlparse(url)`: `urlsplit`, then path parameters are split
off when the scheme uses them and the path contains a `';'`. -/
def pyUrlparse (url : List Char) : UrlParseResult :=
  let r := pyUrlsplit url
  if uses_params.contains r.scheme ∧ ';' ∈ r.path then
    let (p, ps) := pySplitparams r.path
    { r with path := p, params := ps }
  else r

/-- `os.path.splitext(p)` (posixpath): the extension starts at the last
`'.'` that lies after the last `'/'` and has a non-`'.'` character before it
within the basename; otherwise the extension is empty. -/
def pySplitext (p : List Char) : List Char × List Char :=
  let sep := rfindIdx '/' p
  let dot := rfindIdx '.' p
  match dot with
  | none => (p, [])
  | some d =>
    let s := match sep with | none => 0 | some i => i + 1
    if d < s then (p, [])
    else if ((p.drop s).take (d - s)).any (fun ch => ch ≠ '.') then
      (p.take d, p.drop d)
    else (p, [])

/-! ### RestRenderer.link (src/m2r2/m2r2.py lines 163–198) -/

/-- `RestRenderer.link`, with the renderer options as the first two
arguments.  The second component of the result is the value `_raw_html`
gives the `_include_raw_html` flag (`true` only on the titled branch; the
other branches leave the flag alone, reported here as `false`).  Python's
`children or link` falls back to the link for an absent or empty child
text. -/
def link (parse_relative_links anonymous_references : Bool)
    (lnk : List Char) (children : Option (List Char))
    (title : Option (List Char)) : List Char × Bool :=
  let underscore := if anonymous_references then toL "__" else toL "_"
  let text := match children with
    | some c => if c = [] then lnk else c
    | none => lnk
  match title with
  | some t =>
    _raw_html (toL "<a href=\"" ++ lnk ++ toL "\" title=\"" ++ t ++
      toL "\">" ++ text ++ toL "</a>")
  | none =>
    if ¬ parse_relative_links then
      (toL "\\ `" ++ text ++ toL " <" ++ lnk ++ toL ">`" ++ underscore ++
        toL "\\ ", false)
    else
      let url_info := pyUrlparse lnk
      if url_info.scheme ≠ [] then
        (toL "\\ `" ++ text ++ toL " <" ++ lnk ++ toL ">`" ++ underscore ++
          toL "\\ ", false)
      else
        let link_type :=
          if url_info.fragment ≠ [] ∧ url_info.path = [] then toL "ref"
          else toL "doc"
        let anchor :=
          if url_info.fragment ≠ [] ∧ url_info.path ≠ [] then []
          else url_info.fragment
        let doc_link := (pySplitext url_info.path).1 ++ anchor
        (toL "\\ :" ++ link_type ++ toL ":`" ++ text ++ toL " <" ++
          doc_link ++ toL ">`\\ ", false)

/-! ### A document as a list of block nodes

The conversion renders each node in turn and `finalize` concatenates the
fragments; a `KeyError` raised while rendering one node (modelled by
`Option.none`) aborts the whole conversion with no output. -/

/-- The block nodes needed by the claims. -/
inductive Node where
  | headingN (text : List Char) (level : Nat)
  | paragraphN (text : List Char)
  | thematicBreakN
  deriving Repr, DecidableEq

/-- Render one node; `none` models an exception escaping the renderer. -/
def renderNode : Node → Option (List Char)
  | .headingN t l => heading t l
  | .paragraphN t => some (paragraph t)
  | .thematicBreakN => some (toL "\n----\n")

/-- Render a document: the concatenation of the nodes' fragments, or `none`
(no partial output) as soon as any node's renderer raises. -/
def renderDoc : List Node → Option (List Char)
  | [] => some []
  | n :: ns =>
    match renderNode n, renderDoc ns with
    | some s, some r => some (s ++ r)
    | _, _ => none

/-! ## Helper lemmas -/

theorem isPrefixOf_append_right (a b : List Char) :
    a.isPrefixOf (a ++ b) = true := by
  induction a with
  | nil => simp [List.isPrefixOf]
  | cons c cs ih => simp [List.isPrefixOf, ih]

theorem occursIn_cons_false {pat : List Char} {c : Char} {cs : List Char}
    (h : occursIn pat (c :: cs) = false) :
    pat.isPrefixOf (c :: cs) = false ∧ occursIn pat cs = false := by
  simpa [occursIn, Bool.or_eq_false_iff] using h

theorem pyReplaceF_of_not_occurs (pat rep : List Char) :
    ∀ (n : Nat) (s : List Char), occursIn pat s = false →
      pyReplaceF pat rep n s = s
  | _, [], _ => by simp [pyReplaceF]
  | 0, _ :: _, _ => rfl
  | n + 1, c :: cs, h => by
    obtain ⟨h1, h2⟩ := occursIn_cons_false h
    simp [pyReplaceF, h1, pyReplaceF_of_not_occurs pat rep n cs h2]

theorem pyReplace_of_not_occurs {pat : List Char} (s : List Char)
    (rep : List Char) (h : occursIn pat s = false) :
    pyReplace s pat rep = s :=
  pyReplaceF_of_not_occurs pat rep s.length s h

theorem cleanup_fixed (s : List Char)
    (h1 : occursIn (toL "\\ \n") s = false)
    (h2 : occursIn (toL "\n\\ ") s = false)
    (h3 : occursIn (toL " \\ ") s = false)
    (h4 : occursIn (toL "\\  ") s = false)
    (h5 : occursIn (toL "\\ .") s = false) :
    cleanup s = s := by
  unfold cleanup
  rw [pyReplace_of_not_occurs s _ h1, pyReplace_of_not_occurs s _ h2,
    pyReplace_of_not_occurs s _ h3, pyReplace_of_not_occurs s _ h4,
    pyReplace_of_not_occurs s _ h5]

theorem hmarks_eq_none {l : Nat} (h : l < 1 ∨ 6 < l) : hmarks l = none := by
  unfold hmarks
  rcases h with h | h <;> split_ifs <;> first | rfl | omega

/-! ## Claims -/

/-- Claim C1 (code_bug evidence).  The heading renderer of
`src/m2r2/m2r2.py` underlines a title with `len(text)` marks, not with the
title's display width: for the full-width title `"日"` the display width is
2 but the rendered underline is the single character `"="`, so this
renderer disagrees with the claim (and with its sibling in
`src/m2r2/rst/renderer.py`, which uses `column_width` as claimed and
produces `"=="`). -/
theorem heading_underline_char_count_not_display_width :
    heading (toL "日") 1 = some (toL "\n日\n=\n") ∧
    columnWidth (toL "日") = 2 ∧
    (toL "日").length = 1 ∧
    headingRst (toL "日") 1 = some (toL "\n日\n==\n") ∧
    heading (toL "日") 1 ≠ headingRst (toL "日") 1 := by
  decide

/-- Claim C2.  A code span without a double-backtick run renders as the
standalone-escaped inline literal `\ ``S``\ ` and leaves the raw-HTML flag
unchanged; a span containing a double-backtick run renders as a raw-HTML
`<code>` span through the `raw-html-m2r` role, with every backtick
replaced, and sets the flag to true. -/
theorem codespan_literal_or_raw_html (text : List Char) (flag : Bool) :
    (occursIn (toL "``") text = false →
      codespan text flag = (toL "\\ ``" ++ text ++ toL "``\\ ", flag)) ∧
    (occursIn (toL "``") text = true →
      codespan text flag =
        (toL "\\ :raw-html-m2r:`<code class=\"docutils literal\"><span class=\"pre\">" ++
          pyReplace text (toL "`") (toL "&#96;") ++ toL "</span></code>`\\ ",
          true)) := by
  constructor <;> intro h <;> simp only [toL] at h <;>
    simp [codespan, h, _raw_html, toL]

/-- Witness for C2 at the concrete spans `"ab"` (no double backtick, flag
kept) and `"a``b"` (double backtick, flag set). -/
theorem codespan_literal_or_raw_html_witness :
    codespan (toL "ab") false = (toL "\\ ``ab``\\ ", false) ∧
    codespan (toL "a``b") false =
      (toL "\\ :raw-html-m2r:`<code class=\"docutils literal\"><span class=\"pre\">" ++
        pyReplace (toL "a``b") (toL "`") (toL "&#96;") ++
        toL "</span></code>`\\ ", true) := by
  constructor
  · have h := (codespan_literal_or_raw_html (toL "ab") false).1 (by decide)
    simpa using h
  · exact (codespan_literal_or_raw_html (toL "a``b") false).2 (by decide)

/-- Claim C3.  `post_process` prepends the two-line `PROLOG` to the cleaned
output exactly when the renderer's `_include_raw_html` flag is true at
finalize time, and otherwise returns the cleaned output alone. -/
theorem post_process_prolog_iff_raw_html (t : List Char) :
    post_process t true = PROLOG ++ cleanup t ∧
    PROLOG.isPrefixOf (post_process t true) = true ∧
    post_process t false = cleanup t := by
  refine ⟨rfl, ?_, rfl⟩
  simp only [post_process, if_pos]
  exact isPrefixOf_append_right PROLOG (cleanup t)

/-- Claim C4 counterexample.  The placeholder→marker substitution is a
global `str.replace` over the whole list body: an occurrence of the
placeholder string inside the user's own item text is replaced as well.
The single item `"foo {#__rest_list_mark__#} bar"` contains the placeholder
in its text; after rendering, that occurrence has been turned into `"* "`
(yielding `"* foo *  bar"`) instead of being preserved. -/
theorem list_substitution_alters_user_text :
    occursIn list_marker (list_item (toL "foo " ++ list_marker ++ toL " bar")) =
      true ∧
    list (list_item (toL "foo " ++ list_marker ++ toL " bar")) false 1 none =
      toL "\n\n* foo *  bar\n" ∧
    occursIn list_marker
      (list (list_item (toL "foo " ++ list_marker ++ toL " bar")) false 1 none) =
      false := by
  decide

/-- Claim C6 counterexample.  For a trailing `::` preceded by whitespace the
parsed marker is the empty string, not `"::"`: the whole span (whitespace
and both colons) is removed from the line, so `"foo ::"` renders as
`"foo"`. -/
theorem eol_marker_whitespace_renders_empty :
    eol_literal_marker (parse_eol_literal_marker (some [' '])) = [] ∧
    eol_literal_marker (parse_eol_literal_marker (some [' '])) ≠ toL "::" ∧
    applyEolLiteralRule (toL "foo ::") = toL "foo" ∧
    applyEolLiteralRule (toL "foo ::") ≠ toL "foo ::" := by
  decide

theorem isPrefixOf_eq_false_of_not_occurs {pat t : List Char}
    (h : occursIn pat t = false) : pat.isPrefixOf t = false := by
  rcases t with _ | ⟨c, cs⟩
  · simpa [occursIn] using h
  · exact (occursIn_cons_false h).1

theorem prefix_split {pat a b : List Char} (h : pat <+: a ++ b) :
    pat <+: a ∨
      (a <+: pat ∧ a.length < pat.length ∧ pat.drop a.length <+: b) := by
  rcases le_or_lt pat.length a.length with hle | hlt
  · exact Or.inl (List.prefix_of_prefix_length_le h (List.prefix_append a b) hle)
  · right
    have hap : a <+: pat :=
      List.prefix_of_prefix_length_le (List.prefix_append a b) h
        (Nat.le_of_lt hlt)
    refine ⟨hap, hlt, ?_⟩
    have hpat_eq : pat = a ++ pat.drop a.length := by
      conv_lhs => rw [← List.take_append_drop a.length pat]
      rw [← List.prefix_iff_eq_take.mp hap]
    obtain ⟨r, hr⟩ := h
    rw [hpat_eq, List.append_assoc] at hr
    exact ⟨r, List.append_cancel_left hr⟩

theorem head?_of_prefix {d s : List Char} (h : d <+: s) (hd : d ≠ []) :
    s.head? = d.head? := by
  obtain ⟨r, rfl⟩ := h
  rcases d with _ | ⟨c, d'⟩
  · exact absurd rfl hd
  · rfl

theorem not_prefixOf_append {pat t s : List Char}
    (hocc : occursIn pat t = false) (hs : s.head? = some '\n')
    (hpat : '\n' ∉ pat) : pat.isPrefixOf (t ++ s) = false := by
  rw [← Bool.not_eq_true, List.isPrefixOf_iff_prefix]
  intro hpre
  rcases prefix_split hpre with hcase | ⟨_, hlt, hdrop⟩
  · rw [← List.isPrefixOf_iff_prefix,
      isPrefixOf_eq_false_of_not_occurs hocc] at hcase
    exact Bool.false_ne_true hcase
  · have hne : pat.drop t.length ≠ [] := by
      intro h0
      have := List.drop_eq_nil_iff.mp h0
      omega
    have hh := head?_of_prefix hdrop hne
    rw [hs] at hh
    rcases hcase : pat.drop t.length with _ | ⟨x, xs⟩
    · exact hne hcase
    · rw [hcase] at hh
      have hx : x = '\n' := by simpa using hh.symm
      have hmem : '\n' ∈ pat.drop t.length := by
        rw [hcase, ← hx]
        exact List.mem_cons_self x xs
      exact hpat (List.mem_of_mem_drop hmem)

theorem pyReplaceF_skip (pat rep : List Char) (hpat : '\n' ∉ pat) :
    ∀ (t : List Char) (n : Nat) (s : List Char),
      occursIn pat t = false → s.head? = some '\n' → t.length ≤ n →
      pyReplaceF pat rep n (t ++ s) =
        t ++ pyReplaceF pat rep (n - t.length) s := by
  intro t
  induction t with
  | nil => intro n s _ _ _; simp
  | cons c t' ih =>
    intro n s hocc hs hn
    obtain ⟨_, h2⟩ := occursIn_cons_false hocc
    rcases n with _ | n'
    · simp at hn
    · have hnp : pat.isPrefixOf (c :: (t' ++ s)) = false := by
        simpa using not_prefixOf_append hocc hs hpat
      simp only [List.cons_append, pyReplaceF, List.append_eq, hnp,
        Bool.false_eq_true, if_false]
      rw [ih n' s h2 hs (by simp at hn; omega)]
      have harith : n' + 1 - (c :: t').length = n' - t'.length := by
        simp
      rw [harith]

theorem marker_not_prefixOf_nl (x : List Char) :
    list_marker.isPrefixOf ('\n' :: x) = false := by
  simp [list_marker, toL, List.isPrefixOf]

theorem marker_nl_not_mem : '\n' ∉ list_marker := by decide

theorem pyReplaceF_marker_nl (rep : List Char) :
    ∀ m, pyReplaceF list_marker rep m ['\n'] = ['\n']
  | 0 => rfl
  | m + 1 => by
    simp [pyReplaceF, marker_not_prefixOf_nl]

theorem pyReplaceF_marker_head (rep t tail : List Char) (n : Nat)
    (hocc : occursIn list_marker t = false)
    (htail : tail.head? = some '\n')
    (hn : list_marker.length + t.length + 1 ≤ n) :
    pyReplaceF list_marker rep n ((list_marker ++ t) ++ tail) =
      (rep ++ t) ++ pyReplaceF list_marker rep (n - 1 - t.length) tail := by
  rcases n with _ | n'
  · omega
  have hcons : (list_marker ++ t) ++ tail =
      '{' :: ((toL "#__rest_list_mark__#\x7d" ++ t) ++ tail) := by
    simp [list_marker, toL]
  rw [hcons, pyReplaceF]
  rw [if_pos]
  · have hdrop : ('{' :: ((toL "#__rest_list_mark__#\x7d" ++ t) ++ tail)).drop
        list_marker.length = t ++ tail := by
      rw [← hcons, List.append_assoc, List.drop_left]
    rw [hdrop, pyReplaceF_skip list_marker rep marker_nl_not_mem t n' tail hocc
      htail (by simp [list_marker, toL] at hn ⊢; omega)]
    simp [Nat.succ_sub_succ, List.append_assoc]
  · rw [← hcons, List.append_assoc]
    exact isPrefixOf_append_right list_marker (t ++ tail)

theorem pyReplaceF_items (rep : List Char) :
    ∀ (ts : List (List Char)) (n : Nat),
      ts ≠ [] →
      (∀ u ∈ ts, occursIn list_marker u = false) →
      (joinNl (ts.map fun u => list_marker ++ u)).length + 1 ≤ n →
      pyReplaceF list_marker rep n
          (joinNl (ts.map fun u => list_marker ++ u) ++ ['\n']) =
        joinNl (ts.map fun u => rep ++ u) ++ ['\n'] := by
  intro ts
  induction ts with
  | nil => intro n h; exact absurd rfl h
  | cons t ts' ih =>
    intro n _ hocc hn
    have hM : list_marker.length = 22 := by decide
    rcases ts' with _ | ⟨t2, ts''⟩
    · have hjoin : joinNl ((t :: []).map fun u => list_marker ++ u) =
        list_marker ++ t := rfl
      have hjoin2 : joinNl ((t :: []).map fun u => rep ++ u) = rep ++ t := rfl
      rw [hjoin] at hn
      rw [hjoin, hjoin2]
      rw [List.length_append] at hn
      rw [pyReplaceF_marker_head rep t ['\n'] n (hocc t (by simp)) rfl
        (by omega)]
      rw [pyReplaceF_marker_nl]
    · have hjoin : joinNl ((t :: t2 :: ts'').map fun u => list_marker ++ u) =
        (list_marker ++ t) ++
          '\n' :: joinNl ((t2 :: ts'').map fun u => list_marker ++ u) := rfl
      have hjoin2 : joinNl ((t :: t2 :: ts'').map fun u => rep ++ u) =
        (rep ++ t) ++ '\n' :: joinNl ((t2 :: ts'').map fun u => rep ++ u) :=
        rfl
      rw [hjoin] at hn
      rw [hjoin, hjoin2]
      have hnlen : list_marker.length + t.length + 1 +
          (joinNl ((t2 :: ts'').map fun u => list_marker ++ u)).length + 1
            ≤ n := by
        rw [List.length_append, List.length_append, List.length_cons] at hn
        omega
      rw [List.append_assoc, List.cons_append]
      rw [pyReplaceF_marker_head rep t
        ('\n' :: (joinNl ((t2 :: ts'').map fun u => list_marker ++ u) ++
          ['\n'])) n (hocc t (by simp)) rfl (by omega)]
      obtain ⟨m, hm⟩ : ∃ m, n - 1 - t.length = m + 1 :=
        ⟨n - 2 - t.length, by omega⟩
      rw [hm]
      rw [show pyReplaceF list_marker rep (m + 1)
          ('\n' :: (joinNl ((t2 :: ts'').map fun u => list_marker ++ u) ++
            ['\n'])) =
          '\n' :: pyReplaceF list_marker rep m
            (joinNl ((t2 :: ts'').map fun u => list_marker ++ u) ++ ['\n'])
        from by simp [pyReplaceF, marker_not_prefixOf_nl]]
      rw [ih m (by simp) (fun u hu => hocc u (List.mem_cons_of_mem t hu))
        (by omega)]
      simp [List.append_assoc]

theorem splitNlAux_cons_nl (s acc : List Char) :
    splitNlAux ('\n' :: s) acc = acc.reverse :: splitNlAux s [] := by
  simp [splitNlAux]

theorem splitNlAux_no_nl (x : List Char) (hx : '\n' ∉ x) :
    ∀ acc, splitNlAux x acc = [acc.reverse ++ x] := by
  induction x with
  | nil => intro acc; simp [splitNlAux]
  | cons c x' ih =>
    intro acc
    have hc : ¬ c = '\n' := fun h => hx (h ▸ List.mem_cons_self c x')
    simp only [splitNlAux, if_neg hc]
    rw [ih (fun h => hx (List.mem_cons_of_mem c h)) (c :: acc)]
    simp

theorem splitNlAux_append_no_nl (x : List Char) (hx : '\n' ∉ x) :
    ∀ (s acc : List Char),
      splitNlAux (x ++ s) acc = splitNlAux s (x.reverse ++ acc) := by
  induction x with
  | nil => intro s acc; simp
  | cons c x' ih =>
    intro s acc
    have hc : ¬ c = '\n' := fun h => hx (h ▸ List.mem_cons_self c x')
    simp only [List.cons_append, splitNlAux, List.append_eq, if_neg hc]
    rw [ih (fun h => hx (List.mem_cons_of_mem c h)) s (c :: acc)]
    simp

theorem splitNlAux_itemsBody :
    ∀ (ts : List (List Char)) (t : List Char) (acc : List Char),
      (∀ u ∈ t :: ts, '\n' ∉ u) →
      splitNlAux (((t :: ts).map list_item).flatten) acc =
        acc.reverse :: (t :: ts).map (fun u => list_marker ++ u) := by
  intro ts
  induction ts with
  | nil =>
    intro t acc h
    have hnl : '\n' ∉ list_marker ++ t := by
      intro hc
      rcases List.mem_append.mp hc with hc | hc
      · exact marker_nl_not_mem hc
      · exact h t (by simp) hc
    have hbody : (((t :: []) : List (List Char)).map list_item).flatten =
        '\n' :: (list_marker ++ t) := by
      rw [List.map_cons, List.map_nil, List.flatten_cons, List.flatten_nil,
        List.append_nil, list_item]
    rw [hbody, splitNlAux_cons_nl, splitNlAux_no_nl (list_marker ++ t) hnl []]
    simp
  | cons t2 ts' ih =>
    intro t acc h
    have hnl : '\n' ∉ list_marker ++ t := by
      intro hc
      rcases List.mem_append.mp hc with hc | hc
      · exact marker_nl_not_mem hc
      · exact h t (by simp) hc
    have hbody : ((t :: t2 :: ts').map list_item).flatten =
        '\n' :: ((list_marker ++ t) ++ ((t2 :: ts').map list_item).flatten) := by
      rw [List.map_cons, List.flatten_cons, list_item, List.cons_append]
    rw [hbody, splitNlAux_cons_nl,
      splitNlAux_append_no_nl (list_marker ++ t) hnl _ [],
      ih t2 _ (fun u hu => h u (List.mem_cons_of_mem t hu))]
    simp

theorem pySplitlines_itemsBody (t : List Char) (ts : List (List Char))
    (h : ∀ u ∈ t :: ts, '\n' ∉ u) :
    pySplitlines (((t :: ts).map list_item).flatten) =
      [] :: (t :: ts).map (fun u => list_marker ++ u) := by
  unfold pySplitlines
  rw [splitNlAux_itemsBody ts t [] h]
  rw [if_neg]
  · simp
  · intro hlast
    simp only [List.map_cons, List.reverse_nil, List.getLast?_cons_cons]
      at hlast
    have hmem := List.mem_of_getLast?_eq_some hlast
    rcases List.mem_cons.mp hmem with hc | hc
    · have : list_marker = [] ∧ t = [] := List.append_eq_nil.mp hc.symm
      exact absurd this.1 (by decide)
    · obtain ⟨u, _, hu⟩ := List.mem_map.mp hc
      have : list_marker = [] ∧ u = [] := List.append_eq_nil.mp hu
      exact absurd this.1 (by decide)

theorem indent_map_id (pad : List Char) (lines : List (List Char))
    (h : ∀ l ∈ lines, l = [] ∨ list_marker.isPrefixOf l = true) :
    (lines.map fun line =>
      if line ≠ [] ∧ ¬ list_marker.isPrefixOf line then pad ++ line
      else line) = lines := by
  induction lines with
  | nil => rfl
  | cons l ls ih =>
    rw [List.map_cons, ih (fun x hx => h x (List.mem_cons_of_mem l hx))]
    rcases h l (by simp) with rfl | hp
    · simp
    · simp [hp]

theorem pyReplaceF_marker_step (rep x : List Char) (k : Nat) :
    pyReplaceF list_marker rep (k + 1) ('\n' :: x) =
      '\n' :: pyReplaceF list_marker rep k x := by
  simp [pyReplaceF, marker_not_prefixOf_nl]

/-- Claim C4 amended.  The placeholder→marker substitution over a list body
built from items whose text is free of the placeholder (and of line-boundary
characters) replaces each item's placeholder exactly once, in item order:
the rendered list is exactly one marker-prefixed line per item.  (The
counterexample shows that a placeholder occurring inside an item's own text
is replaced as well, which is why the marker-free hypothesis is needed.) -/
theorem list_marker_substitution_exact_once (items : List (List Char))
    (ordered : Bool) (level : Nat) (start : Option Nat)
    (h : ∀ u ∈ items, occursIn list_marker u = false ∧
      ∀ c ∈ u, pyLineBoundary c = false) :
    list ((items.map list_item).flatten) ordered level start =
      '\n' :: (joinNl ([] :: items.map fun u =>
        (if ordered then toL "#. " else toL "* ") ++ u) ++ ['\n']) := by
  have hnl : ∀ u ∈ items, '\n' ∉ u := by
    intro u hu hc
    have := (h u hu).2 '\n' hc
    simp [pyLineBoundary] at this
  rcases items with _ | ⟨t, ts⟩
  · simp only [list, List.map_nil, List.flatten_nil]
    rw [show pySplitlines ([] : List Char) = [] from by
      simp [pySplitlines, splitNlAux]]
    simp only [List.map_nil, joinNl, List.nil_append]
    unfold pyReplace
    rw [show (['\n', '\n'] : List Char).length = 1 + 1 from rfl,
      pyReplaceF_marker_step, pyReplaceF_marker_nl]
  · simp only [list]
    rw [pySplitlines_itemsBody t ts (fun u hu => hnl u hu)]
    rw [indent_map_id]
    · have hjoin : joinNl (([] : List Char) ::
          (t :: ts).map fun u => list_marker ++ u) =
          '\n' :: joinNl ((t :: ts).map fun u => list_marker ++ u) := rfl
      rw [hjoin]
      unfold pyReplace
      rw [List.cons_append]
      rw [show ('\n' :: ('\n' ::
          (joinNl ((t :: ts).map fun u => list_marker ++ u) ++ ['\n']))).length =
          (((joinNl ((t :: ts).map fun u => list_marker ++ u)).length + 1) + 1)
            + 1
        from by simp [List.length_append]]
      rw [pyReplaceF_marker_step, pyReplaceF_marker_step]
      rw [pyReplaceF_items _ (t :: ts)
        ((joinNl ((t :: ts).map fun u => list_marker ++ u)).length + 1)
        (by simp) (fun u hu => (h u hu).1) (by omega)]
      rfl
    · intro l hl
      rcases List.mem_cons.mp hl with rfl | hl
      · exact Or.inl rfl
      · obtain ⟨u, _, rfl⟩ := List.mem_map.mp hl
        exact Or.inr (isPrefixOf_append_right list_marker u)

/-- Witness for C4 amended at the unordered two-item list `["aa", "bb"]`:
each placeholder is replaced exactly once and in order, giving
`"\n\n* aa\n* bb\n"`. -/
theorem list_marker_substitution_exact_once_witness :
    list (([toL "aa", toL "bb"].map list_item).flatten) false 1 none =
      '\n' :: (joinNl ([] :: [toL "aa", toL "bb"].map fun u =>
        (if false then toL "#. " else toL "* ") ++ u) ++ ['\n']) :=
  list_marker_substitution_exact_once [toL "aa", toL "bb"] false 1 none
    (by decide)

theorem matchEolAt_ws_colons (ws : List Char)
    (hws : ∀ c ∈ ws, pyIsSpace c = true) :
    matchEolAt (ws ++ [':', ':']) = some (if ws = [] then none else some ws) := by
  unfold matchEolAt
  rw [List.takeWhile_append_of_pos hws, List.dropWhile_append_of_pos hws]
  simp [pyIsSpace]

theorem matchEolAt_none_of_nonspace (a : List Char)
    (h : ¬ ∀ c ∈ a, pyIsSpace c = true) :
    matchEolAt (a ++ [':', ':']) = none := by
  have hne : a.dropWhile pyIsSpace ≠ [] := by
    intro hnil
    exact h fun c hc => List.dropWhile_eq_nil_iff.mp hnil c hc
  obtain ⟨c, d', hd⟩ : ∃ c d', a.dropWhile pyIsSpace = c :: d' := by
    rcases hcase : a.dropWhile pyIsSpace with _ | ⟨c, d'⟩
    · exact absurd hcase hne
    · exact ⟨c, d', rfl⟩
  unfold matchEolAt
  rw [List.dropWhile_append, hd]
  simp only [List.isEmpty_cons, if_neg Bool.false_ne_true]
  rw [if_neg]
  rintro ⟨h1, h2⟩
  rcases d' with _ | ⟨c2, d''⟩
  · simp [pyIsSpace] at h2
  · have hmem : ':' ∈ d'' ++ [':', ':'] := by simp
    have hsp : pyIsSpace ':' = true :=
      List.all_eq_true.mp (by simpa using h2) ':' hmem
    exact absurd hsp (by decide)

theorem searchEol_append (t tail : List Char) (g : Option (List Char))
    (htail : matchEolAt tail = some g)
    (hmiss : ∀ d : List Char, d ≠ [] → d <:+ t →
      matchEolAt (d ++ tail) = none) :
    searchEol (t ++ tail) = some (t, g) := by
  induction t with
  | nil =>
    rcases tail with _ | ⟨c, cs⟩
    · rw [show matchEolAt ([] : List Char) = none from rfl] at htail
      exact Option.noConfusion htail
    · rw [List.nil_append, searchEol, htail]
      rfl
  | cons c t' ih =>
    have hm : matchEolAt ((c :: t') ++ tail) = none :=
      hmiss (c :: t') (by simp) (List.suffix_refl _)
    simp only [List.cons_append] at hm ⊢
    rw [searchEol, hm]
    have ih' := ih fun d hd hsuf =>
      hmiss d hd (hsuf.trans (List.suffix_cons c t'))
    rw [ih']
    rfl

/-- Claim C6 amended.  For a line ending in the literal-block trigger
`(\s+)?::\s*$` (line text `t`, then optional whitespace `ws`, then `::`,
with `t` not ending in whitespace): when the `::` is attached directly
(`ws = []`) the rule rewrites the line to `t ++ ":"` — a single colon; when
the `::` is preceded by whitespace the rule rewrites the line to `t` alone —
the whitespace and both colons are removed and the marker renders as the
empty string. -/
theorem eol_literal_rule_behavior (t ws : List Char)
    (ht : lastNotSpace t = true)
    (hws : ∀ c ∈ ws, pyIsSpace c = true) :
    applyEolLiteralRule (t ++ ws ++ [':', ':']) =
      t ++ (if ws = [] then [':'] else []) := by
  have hmatch := matchEolAt_ws_colons ws hws
  have hmiss : ∀ d : List Char, d ≠ [] → d <:+ t →
      matchEolAt (d ++ (ws ++ [':', ':'])) = none := by
    intro d hd hsuf
    rw [← List.append_assoc]
    apply matchEolAt_none_of_nonspace
    intro hall
    obtain ⟨c, hgl⟩ : ∃ c, d.getLast? = some c := by
      rcases hcase : d.getLast? with _ | ⟨c⟩
      · exact absurd (List.getLast?_eq_none_iff.mp hcase) hd
      · exact ⟨c, rfl⟩
    have hsp : pyIsSpace c = true :=
      hall c (List.mem_append_left ws (List.mem_of_getLast?_eq_some hgl))
    obtain ⟨u, hu⟩ := hsuf
    have hlast : t.getLast? = some c := by
      rw [← hu, List.getLast?_append, hgl]
      rfl
    rw [lastNotSpace, hlast] at ht
    simp [hsp] at ht
  rw [List.append_assoc]
  unfold applyEolLiteralRule
  rw [searchEol_append t (ws ++ [':', ':']) _ hmatch hmiss]
  by_cases hw : ws = [] <;>
    simp [hw, eol_literal_marker, parse_eol_literal_marker]

/-- Witness for C6 amended: `"foo ::"` becomes `"foo"` (whitespace case),
applying the theorem at `t = "foo"`, `ws = " "`. -/
theorem eol_literal_rule_behavior_witness :
    applyEolLiteralRule (toL "foo" ++ [' '] ++ [':', ':']) =
      toL "foo" ++ (if ([' '] : List Char) = [] then [':'] else []) :=
  eol_literal_rule_behavior (toL "foo") [' '] (by decide)
    (by intro c hc; simp at hc; subst hc; decide)

theorem breakAtChar_none {ch : Char} {s : List Char} (h : ch ∉ s) :
    breakAtChar ch s = none := by
  induction s with
  | nil => rfl
  | cons c cs ih =>
    have hc : ¬ c = ch := fun hc => h (hc ▸ List.mem_cons_self c cs)
    simp [breakAtChar, hc, ih fun hm => h (List.mem_cons_of_mem c hm)]

theorem breakAtChar_first {ch : Char} {a : List Char} (b : List Char)
    (ha : ch ∉ a) : breakAtChar ch (a ++ ch :: b) = some (a, b) := by
  induction a with
  | nil => simp [breakAtChar]
  | cons c a' ih =>
    have hc : ¬ c = ch := fun hc => ha (hc ▸ List.mem_cons_self c a')
    simp [breakAtChar, hc, ih fun hm => ha (List.mem_cons_of_mem c hm)]

theorem pyUrlsplit_rel (p f : List Char) (hp : p ≠ [])
    (hcp : ':' ∉ p) (hcf : ':' ∉ f) (hhp : '#' ∉ p) (hqp : '?' ∉ p)
    (hsl : (toL "//").isPrefixOf p = false) :
    pyUrlsplit (p ++ '#' :: f) =
      { scheme := [], netloc := [], path := p, params := [], query := [],
        fragment := f } := by
  have hcolon : ':' ∉ p ++ '#' :: f := by
    intro hmem
    rcases List.mem_append.mp hmem with hm | hm
    · exact hcp hm
    · rcases List.mem_cons.mp hm with hm | hm
      · simp at hm
      · exact hcf hm
  have hnp : (toL "//").isPrefixOf (p ++ '#' :: f) = false := by
    rcases p with _ | ⟨c1, p'⟩
    · exact absurd rfl hp
    rcases p' with _ | ⟨c2, p''⟩
    · simp [toL, List.isPrefixOf]
    · simp only [toL, List.isPrefixOf, List.cons_append] at hsl ⊢
      simpa using hsl
  unfold pyUrlsplit
  simp only [breakAtChar_none hcolon, hnp, Bool.false_eq_true, if_false,
    breakAtChar_first f hhp, breakAtChar_none hqp]

theorem pyUrlparse_rel (p f : List Char) (hp : p ≠ [])
    (hcp : ':' ∉ p) (hcf : ':' ∉ f) (hhp : '#' ∉ p) (hqp : '?' ∉ p)
    (hsc : ';' ∉ p) (hsl : (toL "//").isPrefixOf p = false) :
    pyUrlparse (p ++ '#' :: f) =
      { scheme := [], netloc := [], path := p, params := [], query := [],
        fragment := f } := by
  unfold pyUrlparse
  rw [pyUrlsplit_rel p f hp hcp hcf hhp hqp hsl]
  rw [if_neg]
  rintro ⟨-, hsemi⟩
  exact hsc hsemi

/-- Claim C5.  A relative link with a non-empty path and a non-empty
fragment (URL `p#f`), rendered with `parse_relative_links` enabled and no
title, becomes a `:doc:` cross-reference whose target is the path with its
extension removed — the fragment is dropped and no combined path+fragment
target is formed.  (Side conditions keep the URL inside the plain relative
form: no scheme-colon, netloc, query, or parameter delimiters.) -/
theorem relative_link_path_fragment_doc_ref
    (p f : List Char) (anonymous_references : Bool)
    (children : Option (List Char))
    (hp : p ≠ []) (hf : f ≠ [])
    (hcp : ':' ∉ p) (hcf : ':' ∉ f) (hhp : '#' ∉ p) (hqp : '?' ∉ p)
    (hsc : ';' ∉ p) (hsl : (toL "//").isPrefixOf p = false) :
    link true anonymous_references (p ++ '#' :: f) children none =
      (toL "\\ :doc:`" ++
        (match children with
          | some c => if c = [] then p ++ '#' :: f else c
          | none => p ++ '#' :: f) ++
        toL " <" ++ (pySplitext p).1 ++ toL ">`\\ ", false) := by
  unfold link
  rw [pyUrlparse_rel p f hp hcp hcf hhp hqp hsc hsl]
  simp [hp, hf, toL]

/-- Witness for C5 at the spec's example `"[text](sub/page.md#anchor)"`:
the emitted cross-reference targets `sub/page` (extension and fragment
both dropped). -/
theorem relative_link_path_fragment_doc_ref_witness :
    link true false (toL "sub/page.md" ++ '#' :: toL "anchor")
        (some (toL "text")) none =
      (toL "\\ :doc:`" ++
        (match (some (toL "text") : Option (List Char)) with
          | some c => if c = [] then toL "sub/page.md" ++ '#' :: toL "anchor"
            else c
          | none => toL "sub/page.md" ++ '#' :: toL "anchor") ++
        toL " <" ++ (pySplitext (toL "sub/page.md")).1 ++ toL ">`\\ ",
        false) ∧
    (pySplitext (toL "sub/page.md")).1 = toL "sub/page" :=
  ⟨relative_link_path_fragment_doc_ref (toL "sub/page.md") (toL "anchor")
    false (some (toL "text")) (by decide) (by decide) (by decide) (by decide)
    (by decide) (by decide) (by decide) (by decide), by decide⟩

/-- Claim C7 (code_bug evidence).  The custom inline rule tuple is bound to
the attribute `RUlE_NAMES` (lower-case `l`), not to the engine's
`RULE_NAMES`, and `M2R2.__init__` passes `disable_inline_math`
positionally, so the active rule set never contains `"inline_math"` —
neither with the option unset (where the claim expects a `:math:` role) nor
with it set — while the misspelled attribute does contain it. -/
theorem inline_math_rule_never_active :
    (m2r2InlineInit false).RULE_NAMES.contains "inline_math" = false ∧
    (m2r2InlineInit true).RULE_NAMES.contains "inline_math" = false ∧
    (restInlineParserInit false).RUlE_NAMES.contains "inline_math" = true := by
  decide

/-- Claim C8 counterexample.  The post-processor's substitution sequence is
not idempotent: on `"\ \ \n"` one application yields `"\ \n"` (the second
escape marker is consumed, exposing the first), and a second application
yields `"\n"`. -/
theorem cleanup_not_idempotent :
    cleanup (toL "\\ \\ \n") = toL "\\ \n" ∧
    cleanup (cleanup (toL "\\ \\ \n")) = toL "\n" ∧
    cleanup (cleanup (toL "\\ \\ \n")) ≠ cleanup (toL "\\ \\ \n") := by
  decide

/-- Claim C8 amended.  The substitution sequence is idempotent on every
input whose once-processed output contains no further occurrence of any of
the five patterns (replacements can concatenate fragments into new pattern
occurrences, as in the counterexample, so this stability condition is what
the order-dependent chain actually guarantees). -/
theorem cleanup_idempotent_of_stable (t : List Char)
    (h1 : occursIn (toL "\\ \n") (cleanup t) = false)
    (h2 : occursIn (toL "\n\\ ") (cleanup t) = false)
    (h3 : occursIn (toL " \\ ") (cleanup t) = false)
    (h4 : occursIn (toL "\\  ") (cleanup t) = false)
    (h5 : occursIn (toL "\\ .") (cleanup t) = false) :
    cleanup (cleanup t) = cleanup t :=
  cleanup_fixed (cleanup t) h1 h2 h3 h4 h5

/-- Witness for C8 amended at `"x\ \ny"`: one application gives `"x\ny"`,
which is stable, and a second application changes nothing. -/
theorem cleanup_idempotent_of_stable_witness :
    cleanup (cleanup (toL "x\\ \ny")) = cleanup (toL "x\\ \ny") :=
  cleanup_idempotent_of_stable (toL "x\\ \ny") (by decide) (by decide)
    (by decide) (by decide) (by decide)

/-- Claim C9.  A heading node whose level is outside `[1, 6]` raises a
`KeyError` from the `hmarks` table lookup; the conversion aborts with no
partial output: the whole document render is `none` whenever any such node
occurs in the document. -/
theorem unsupported_heading_level_aborts (ns : List Node) (t : List Char)
    (l : Nat) (hmem : Node.headingN t l ∈ ns) (hl : l < 1 ∨ 6 < l) :
    renderDoc ns = none := by
  induction ns with
  | nil => cases hmem
  | cons n ns ih =>
    rcases List.mem_cons.mp hmem with h | h
    · subst h
      simp [renderDoc, renderNode, heading, hmarks_eq_none hl]
    · cases hr : renderNode n <;> simp [renderDoc, hr, ih h]

/-- Witness for C9: a document with a valid paragraph followed by a level-7
heading renders to `none` — the paragraph's fragment is not emitted. -/
theorem unsupported_heading_level_aborts_witness :
    renderDoc [Node.paragraphN (toL "hi"), Node.headingN (toL "x") 7] =
      none :=
  unsupported_heading_level_aborts _ (toL "x") 7 (by decide) (by omega)

/-- Claim C10.  A paragraph whose inline-rendered text ends with `"::"`
loses exactly its final character — the emitted content then ends in a
single `":"` — before being wrapped in a leading and trailing newline; a
paragraph not ending in `"::"` is wrapped unchanged. -/
theorem paragraph_trailing_double_colon (t : List Char) :
    ((toL "::").isSuffixOf t = true →
      paragraph t = '\n' :: (t.dropLast ++ ['\n']) ∧
        (toL ":").isSuffixOf t.dropLast = true) ∧
    ((toL "::").isSuffixOf t = false →
      paragraph t = '\n' :: (t ++ ['\n'])) := by
  constructor
  · intro h
    have hsuf : toL "::" <:+ t := by simpa using h
    obtain ⟨u, hu⟩ := hsuf
    constructor
    · simp [paragraph, h]
    · subst hu
      rw [show u ++ toL "::" = (u ++ [':']) ++ [':'] by simp [toL]]
      rw [List.dropLast_concat]
      simp only [List.isSuffixOf_iff_suffix]
      exact ⟨u, rfl⟩
  · intro h
    simp [paragraph, h]

/-- Witness for C10 at `"ab::"` (one colon removed) and `"ab:"` (kept). -/
theorem paragraph_trailing_double_colon_witness :
    (paragraph (toL "ab::") = '\n' :: ((toL "ab::").dropLast ++ ['\n']) ∧
      (toL ":").isSuffixOf (toL "ab::").dropLast = true) ∧
    paragraph (toL "ab:") = '\n' :: (toL "ab:" ++ ['\n']) :=
  ⟨(paragraph_trailing_double_colon (toL "ab::")).1 (by decide),
   (paragraph_trailing_double_colon (toL "ab:")).2 (by decide)⟩

end M2R2
